import Mathlib

/-!
Shallow embedding of the clustering engine of `deep_repo` (file
`src/deep_repo/analyzers/deep_issues.py` together with `src/deep_repo/deep_base.py`).

The issue dict `self.issues` (an insertion-ordered `title → url` mapping) is modelled
as an association list of `(title, url)` pairs; the analysis dict `self.analysis`
(`label → list of entries`) as an association list of `(label, entries)` pairs, in
insertion order, mirroring Python dict semantics.  The external black boxes
(sentence-transformer embedder, hdbscan clusterer) enter as parameters: the clusterer's
output is a list of integer labels, `-1` being the noise sentinel.
-/

namespace DeepRepo

/-- One issue entry `(title, url)`, i.e. one item of the `self.issues` dict. -/
abbrev Entry := String × String

/-- One cluster group `(label, members)`, i.e. one item of the `self.analysis` dict. -/
abbrev Group := Int × List Entry

/-- `self.analysis.setdefault(label, []).append(entry)` on an insertion-ordered dict:
if the label is present, append the entry to its list in place; otherwise add a new
`(label, [entry])` item at the end. -/
def appendEntry : List Group → Int → Entry → List Group
  | [], label, e => [(label, [e])]
  | g :: gs, label, e =>
    if g.1 = label then (g.1, g.2 ++ [e]) :: gs
    else g :: appendEntry gs label e

/-- The grouping loop `for label, issue in zip(clustering, list(self.issues.items()))`,
starting from the current contents of `self.analysis`. -/
def buildAnalysis (acc : List Group) (pairs : List (Int × Entry)) : List Group :=
  pairs.foldl (fun a p => appendEntry a p.1 p.2) acc

/-- The ordering used by `sorted(self.analysis.items(), key=lambda item: len(item[1]),
reverse=True)`: group `a` may precede group `b` when its member list is at least as
long. -/
def groupGE (a b : Group) : Prop := b.2.length ≤ a.2.length

instance : DecidableRel groupGE := fun a b => Nat.decLe _ _

instance : IsTotal Group groupGE := ⟨fun a b => Nat.le_total b.2.length a.2.length⟩

instance : IsTrans Group groupGE := ⟨fun _ _ _ hab hbc => le_trans hbc hab⟩

/-- `dict(sorted(self.analysis.items(), key=lambda item: len(item[1]), reverse=True))`:
a stable sort by descending member count.  Python's sort is stable, and so is
insertion sort with a `≥`-style relation. -/
def sortGroups (gs : List Group) : List Group := gs.insertionSort groupGE

/-- Key lookup in the analysis dict (the read half of `self.analysis.pop(-1)`). -/
def findLabel (label : Int) : List Group → Option (List Entry)
  | [] => none
  | g :: gs => if g.1 = label then some g.2 else findLabel label gs

/-- Key removal from the analysis dict (the delete half of `self.analysis.pop(-1)`). -/
def removeLabel (label : Int) : List Group → List Group
  | [] => []
  | g :: gs => if g.1 = label then gs else g :: removeLabel label gs

/-- `self.analysis[-1] = self.analysis.pop(-1)`.  `dict.pop` without a default raises
`KeyError` when the key is absent; on success the reassignment re-adds the key, which
lands at the end of the insertion order. -/
def moveNoiseLast (gs : List Group) : Except String (List Group) :=
  match findLabel (-1) gs with
  | none => .error "KeyError: -1"
  | some v => .ok (removeLabel (-1) gs ++ [(-1, v)])

/-- The ranking/assembly stage of `analyze_data` on the parallel
`(label, (title, url))` triples: group by label in encounter order, stable-sort by
descending size, then the noise fix-up. -/
def rankAssemble (triples : List (Int × Entry)) : Except String (List Group) :=
  moveNoiseLast (sortGroups (buildAnalysis [] triples))

/-- `DeepIssues.analyze_data` as a function of the clusterer's labels and the issue
dict (`self.issues`), for a fresh analyzer (`self.analysis == {}`).  The leading guard
is `if not self.issues: raise ValueError("Open issues not found.")`. -/
def analyzeData (labels : List Int) (issues : List Entry) : Except String (List Group) :=
  if issues.isEmpty then .error "Open issues not found."
  else rankAssemble (labels.zip issues)

/-- The mutable state of a `DeepIssues` object: `self.issues` and `self.analysis`. -/
structure AnalyzerState where
  issues : List Entry
  analysis : List Group
deriving Repr, DecidableEq

/-- `DeepIssues.analyze_data` as a state transformer: returns the post-state and the
error raised, if any.  Mutations made before an exception persist on the object, so the
post-state on the `KeyError` path holds the sorted groups already assigned to
`self.analysis`. -/
def analyzeDataRun (labels : List Int) (s : AnalyzerState) : AnalyzerState × Option String :=
  if s.issues.isEmpty then (s, some "Open issues not found.")
  else
    let sorted := sortGroups (buildAnalysis s.analysis (labels.zip s.issues))
    match findLabel (-1) sorted with
    | none => ({ s with analysis := sorted }, some "KeyError: -1")
    | some v => ({ s with analysis := removeLabel (-1) sorted ++ [(-1, v)] }, none)

/-- `self.issues.update({issue.title: issue.html_url})`: update the value in place when
the title is already a key, otherwise append a new item. -/
def updateTitle : List Entry → Entry → List Entry
  | [], e => [e]
  | d :: ds, e => if d.1 = e.1 then (d.1, e.2) :: ds else d :: updateTitle ds e

/-- The collection loop of `DeepIssues.collect_data` over the issues returned by the
hosting API, building the `self.issues` dict. -/
def buildIssueDict (collected : List Entry) : List Entry :=
  collected.foldl updateTitle []

/-- `DeepIssues.collect_data` as a function of the issues fetched from the API:
`if not self.issues: raise ValueError("Issues not available")`. -/
def collectData (collected : List Entry) : Except String (List Entry) :=
  let issues := buildIssueDict collected
  if issues.isEmpty then .error "Issues not available" else .ok issues

/-- `DeepRepoBase.run`: `collect_data` inside `try/except ValueError` (on error, log
and return — the engine is never invoked, result `none`), then `analyze_data`. -/
def runPipeline (collected : List Entry) (labels : List Int) :
    Option (Except String (List Group)) :=
  match collectData collected with
  | .error _ => none
  | .ok issues => some (analyzeData labels issues)

/-- Manhattan (L1) distance between two vectors, as computed by
`sklearn.metrics.pairwise.manhattan_distances` for one pair. -/
def manhattanDist (v w : List ℚ) : ℚ :=
  ((v.zip w).map fun p => |p.1 - p.2|).sum

/-- `manhattan_distances(vectors)`: the square matrix of pairwise L1 distances. -/
def manhattan_distances (vs : List (List ℚ)) : List (List ℚ) :=
  vs.map fun v => vs.map fun w => manhattanDist v w

/-- Entry `(i, j)` of the distance matrix (defaulting to `0` out of range). -/
def matEntry (vs : List (List ℚ)) (i j : Nat) : ℚ :=
  ((manhattan_distances vs).getD i []).getD j 0

/-- The display identity of the `i`-th (0-based) group in `generate_report`:
`f"### Group {i+1 if label != -1 else 'Other'}:"`. -/
def groupIdent (i : Nat) (label : Int) : String :=
  if label ≠ -1 then toString (i + 1) else "Other"

/-- The sequence of group display identities rendered by
`DeepIssues.generate_report` over the ordered analysis groups. -/
def reportIdents (gs : List Group) : List String :=
  gs.enum.map fun p => groupIdent p.1 p.2.1

/-- Modelled from the spec: the density clusterer is the external `hdbscan` library
(not part of `src/`).  Per the spec (§4.3), every selected cluster has at least
`min_cluster_size` members, and items in no selected cluster carry the noise
sentinel `-1`; so a labeling is valid only if each non-noise label occurs at least
`min_cluster_size` times. -/
def ValidLabeling (minClusterSize : Nat) (labels : List Int) : Prop :=
  ∀ l ∈ labels, l ≠ -1 → minClusterSize ≤ labels.count l

/-- The keys of an analysis dict, in insertion order. -/
def keys (gs : List Group) : List Int := gs.map (·.1)

/-- The value stored under a label, defaulting to the empty list (what
`setdefault(label, [])` starts from). -/
def valueAt (label : Int) (gs : List Group) : List Entry :=
  (findLabel label gs).getD []

/-- All entries of an analysis dict, group by group. -/
def allEntries (gs : List Group) : List Entry := (gs.map (·.2)).flatten

/-! ### Helper lemmas about the grouping loop -/

lemma keys_cons (g : Group) (gs : List Group) : keys (g :: gs) = g.1 :: keys gs := rfl

lemma keys_appendEntry (gs : List Group) (l : Int) (e : Entry) :
    keys (appendEntry gs l e) = if l ∈ keys gs then keys gs else keys gs ++ [l] := by
  induction gs with
  | nil => simp [appendEntry, keys]
  | cons g gs ih =>
    by_cases h : g.1 = l
    · subst h
      simp [appendEntry, keys_cons]
    · rw [appendEntry, if_neg h, keys_cons, keys_cons, ih]
      have h' : ¬ l = g.1 := fun hc => h hc.symm
      by_cases hm : l ∈ keys gs
      · simp [hm, h']
      · simp [hm, h']

lemma mem_keys_appendEntry (gs : List Group) (l x : Int) (e : Entry) :
    x ∈ keys (appendEntry gs l e) ↔ x ∈ keys gs ∨ x = l := by
  rw [keys_appendEntry]
  split_ifs with h
  · constructor
    · exact .inl
    · rintro (hx | rfl) <;> assumption
  · simp

lemma nodup_keys_appendEntry (gs : List Group) (l : Int) (e : Entry)
    (h : (keys gs).Nodup) : (keys (appendEntry gs l e)).Nodup := by
  rw [keys_appendEntry]
  split_ifs with hm
  · exact h
  · simpa [List.nodup_append] using ⟨h, hm⟩

lemma findLabel_appendEntry_self (gs : List Group) (l : Int) (e : Entry) :
    findLabel l (appendEntry gs l e) = some (valueAt l gs ++ [e]) := by
  induction gs with
  | nil => simp [appendEntry, findLabel, valueAt]
  | cons g gs ih =>
    by_cases h : g.1 = l
    · subst h
      simp [appendEntry, findLabel, valueAt]
    · simp [appendEntry, findLabel, h, ih, valueAt]

lemma findLabel_appendEntry_other (gs : List Group) (l x : Int) (e : Entry)
    (hx : x ≠ l) : findLabel x (appendEntry gs l e) = findLabel x gs := by
  induction gs with
  | nil => simp [appendEntry, findLabel, Ne.symm hx]
  | cons g gs ih =>
    by_cases h : g.1 = l
    · subst h
      simp [appendEntry, findLabel, Ne.symm hx]
    · by_cases hgx : g.1 = x
      · simp [appendEntry, findLabel, h, hgx, hx]
      · simp [appendEntry, findLabel, h, hgx, ih]

lemma valueAt_appendEntry (gs : List Group) (l x : Int) (e : Entry) :
    valueAt x (appendEntry gs l e) =
      valueAt x gs ++ (if x = l then [e] else []) := by
  by_cases h : x = l
  · subst h
    rw [valueAt, findLabel_appendEntry_self, if_pos rfl]
    rfl
  · rw [valueAt, findLabel_appendEntry_other gs l x e h, if_neg h, List.append_nil, valueAt]

lemma buildAnalysis_nil (acc : List Group) : buildAnalysis acc [] = acc := rfl

lemma buildAnalysis_cons (acc : List Group) (p : Int × Entry) (ps : List (Int × Entry)) :
    buildAnalysis acc (p :: ps) = buildAnalysis (appendEntry acc p.1 p.2) ps := rfl

lemma valueAt_buildAnalysis (ps : List (Int × Entry)) (acc : List Group) (x : Int) :
    valueAt x (buildAnalysis acc ps) =
      valueAt x acc ++ (ps.filter (fun p => p.1 = x)).map (·.2) := by
  induction ps generalizing acc with
  | nil => simp [buildAnalysis_nil]
  | cons p ps ih =>
    rw [buildAnalysis_cons, ih, valueAt_appendEntry]
    by_cases h : p.1 = x
    · simp [List.filter_cons, h, List.append_assoc]
    · simp [List.filter_cons, h, Ne.symm h]

lemma mem_keys_buildAnalysis (ps : List (Int × Entry)) (acc : List Group) (x : Int) :
    x ∈ keys (buildAnalysis acc ps) ↔ x ∈ keys acc ∨ x ∈ ps.map (·.1) := by
  induction ps generalizing acc with
  | nil => simp [buildAnalysis_nil]
  | cons p ps ih =>
    rw [buildAnalysis_cons, ih]
    rw [mem_keys_appendEntry]
    simp [or_assoc, or_comm, or_left_comm]

lemma nodup_keys_buildAnalysis (ps : List (Int × Entry)) (acc : List Group)
    (h : (keys acc).Nodup) : (keys (buildAnalysis acc ps)).Nodup := by
  induction ps generalizing acc with
  | nil => simpa [buildAnalysis_nil]
  | cons p ps ih =>
    rw [buildAnalysis_cons]
    exact ih _ (nodup_keys_appendEntry _ _ _ h)

/-! ### Helper lemmas about entries and permutations -/

open List

lemma flatten_perm_of_perm {α : Type} {l₁ l₂ : List (List α)} (h : l₁ ~ l₂) :
    l₁.flatten ~ l₂.flatten := by
  induction h with
  | nil => exact .refl _
  | cons x _ ih => simpa using ih.append_left x
  | swap x y l =>
    simp only [List.flatten_cons]
    rw [← List.append_assoc, ← List.append_assoc]
    exact (List.perm_append_comm).append_right _
  | trans _ _ ih₁ ih₂ => exact ih₁.trans ih₂

lemma allEntries_perm_of_perm {gs₁ gs₂ : List Group} (h : gs₁ ~ gs₂) :
    allEntries gs₁ ~ allEntries gs₂ :=
  flatten_perm_of_perm (h.map _)

lemma allEntries_cons (g : Group) (gs : List Group) :
    allEntries (g :: gs) = g.2 ++ allEntries gs := rfl

lemma allEntries_appendEntry (gs : List Group) (l : Int) (e : Entry) :
    allEntries (appendEntry gs l e) ~ allEntries gs ++ [e] := by
  induction gs with
  | nil => simp [appendEntry, allEntries]
  | cons g gs ih =>
    by_cases h : g.1 = l
    · subst h
      rw [appendEntry, if_pos rfl, allEntries_cons, allEntries_cons, List.append_assoc,
        List.append_assoc]
      exact (List.perm_append_comm.append_left g.2).trans (.refl _)
    · rw [appendEntry, if_neg h, allEntries_cons, allEntries_cons, List.append_assoc]
      exact ((ih.append_left g.2).trans (List.append_assoc g.2 (allEntries gs) [e] ▸ .refl _))

lemma allEntries_buildAnalysis (ps : List (Int × Entry)) (acc : List Group) :
    allEntries (buildAnalysis acc ps) ~ allEntries acc ++ ps.map (·.2) := by
  induction ps generalizing acc with
  | nil => simp [buildAnalysis_nil]
  | cons p ps ih =>
    rw [buildAnalysis_cons]
    refine (ih _).trans ?_
    refine ((allEntries_appendEntry acc p.1 p.2).append_right _).trans ?_
    simp [List.append_assoc]

/-! ### Helper lemmas about lookup, removal and the noise fix-up -/

lemma findLabel_eq_none_iff (gs : List Group) (l : Int) :
    findLabel l gs = none ↔ l ∉ keys gs := by
  induction gs with
  | nil => simp [findLabel, keys]
  | cons g gs ih =>
    by_cases h : g.1 = l
    · simp [findLabel, h, keys_cons]
    · simp only [findLabel, if_neg h, keys_cons, List.mem_cons, ih]
      simp [Ne.symm h]

lemma mem_of_findLabel_eq_some {gs : List Group} {l : Int} {v : List Entry}
    (h : findLabel l gs = some v) : (l, v) ∈ gs := by
  induction gs with
  | nil => simp [findLabel] at h
  | cons g gs ih =>
    by_cases hg : g.1 = l
    · simp only [findLabel, if_pos hg] at h
      obtain rfl : g.2 = v := Option.some.inj h
      have he : (l, g.2) = g := by rw [← hg]
      rw [he]
      exact List.mem_cons_self _ _
    · simp only [findLabel, if_neg hg] at h
      exact .tail _ (ih h)

lemma findLabel_eq_some_of_mem {gs : List Group} {g : Group}
    (hnd : (keys gs).Nodup) (h : g ∈ gs) : findLabel g.1 gs = some g.2 := by
  induction gs with
  | nil => simp at h
  | cons g' gs ih =>
    rw [keys_cons, List.nodup_cons] at hnd
    rcases List.mem_cons.1 h with rfl | h2
    · simp [findLabel]
    · by_cases hg : g'.1 = g.1
      · have hmem : g.1 ∈ keys gs := List.mem_map_of_mem (·.1) h2
        rw [← hg] at hmem
        exact absurd hmem hnd.1
      · simp only [findLabel, if_neg hg]
        exact ih hnd.2 h2

lemma removeLabel_sublist (l : Int) (gs : List Group) : removeLabel l gs <+ gs := by
  induction gs with
  | nil => simp [removeLabel]
  | cons g gs ih =>
    by_cases h : g.1 = l
    · rw [removeLabel, if_pos h]
      exact (List.sublist_cons_self g gs)
    · rw [removeLabel, if_neg h]
      exact ih.cons₂ g

lemma perm_cons_removeLabel {gs : List Group} {l : Int} {v : List Entry}
    (h : findLabel l gs = some v) : gs ~ (l, v) :: removeLabel l gs := by
  induction gs with
  | nil => simp [findLabel] at h
  | cons g gs ih =>
    by_cases hg : g.1 = l
    · rw [findLabel, if_pos hg] at h
      obtain ⟨rfl⟩ := Option.some.inj h
      rw [removeLabel, if_pos hg]
      have : g = (l, g.2) := Prod.ext hg rfl
      rw [← this]
    · rw [findLabel, if_neg hg] at h
      rw [removeLabel, if_neg hg]
      exact ((ih h).cons g).trans (Perm.swap (l, v) g _)

lemma not_mem_keys_removeLabel {gs : List Group} {l : Int}
    (hnd : (keys gs).Nodup) : l ∉ keys (removeLabel l gs) := by
  induction gs with
  | nil => simp [removeLabel, keys]
  | cons g gs ih =>
    rw [keys_cons, List.nodup_cons] at hnd
    by_cases h : g.1 = l
    · rw [removeLabel, if_pos h]
      exact h ▸ hnd.1
    · rw [removeLabel, if_neg h, keys_cons]
      intro hc
      rcases List.mem_cons.1 hc with hc | hc
      · exact h hc.symm
      · exact ih hnd.2 hc

/-! ### Helper lemmas about the stable descending sort -/

lemma sortGroups_perm (gs : List Group) : sortGroups gs ~ gs :=
  List.perm_insertionSort groupGE gs

lemma sortGroups_sorted (gs : List Group) : List.Sorted groupGE (sortGroups gs) :=
  List.sorted_insertionSort groupGE gs

lemma keys_perm_sortGroups (gs : List Group) : keys (sortGroups gs) ~ keys gs := by
  unfold keys
  exact (sortGroups_perm gs).map _

lemma keys_nodup_sortGroups {gs : List Group} (h : (keys gs).Nodup) :
    (keys (sortGroups gs)).Nodup :=
  (keys_perm_sortGroups gs).nodup_iff.2 h

lemma mem_keys_sortGroups {gs : List Group} {l : Int} :
    l ∈ keys (sortGroups gs) ↔ l ∈ keys gs :=
  (keys_perm_sortGroups gs).mem_iff

/-- Stability of the descending sort: the subsequence of groups of any fixed size is
unchanged by sorting (Python's `sorted` is stable, as is insertion sort with `≥`). -/
lemma filter_length_sortGroups (k : Nat) (gs : List Group) :
    (sortGroups gs).filter (fun g => g.2.length == k)
      = gs.filter (fun g => g.2.length == k) := by
  induction gs with
  | nil => rfl
  | cons g gs ih =>
    rw [sortGroups, List.insertionSort, List.orderedInsert_eq_take_drop, List.filter_append]
    by_cases hk : g.2.length = k
    · have htake : ((List.insertionSort groupGE gs).takeWhile
          fun b => decide ¬ groupGE g b).filter (fun g => g.2.length == k) = [] := by
        rw [List.filter_eq_nil_iff]
        intro b hb
        have := List.mem_takeWhile_imp hb
        simp only [decide_eq_true_eq] at this
        simp only [groupGE, hk] at this
        simp only [beq_iff_eq]
        omega
      rw [htake, List.filter_cons]
      simp only [hk, beq_self_eq_true, if_pos rfl]
      rw [List.filter_cons]
      simp only [hk, beq_self_eq_true, if_pos rfl]
      rw [List.nil_append, ← ih, sortGroups]
      conv_rhs => rw [← List.takeWhile_append_dropWhile
        (p := fun b => decide ¬ groupGE g b) (l := List.insertionSort groupGE gs)]
      rw [List.filter_append, htake, List.nil_append]
    · have hbk : (g.2.length == k) = false := beq_eq_false_iff_ne.mpr hk
      rw [List.filter_cons, List.filter_cons, hbk]
      simp only [Bool.false_eq_true, if_false]
      rw [← List.filter_append, List.takeWhile_append_dropWhile, ← sortGroups, ih]

/-! ### Structural lemmas about `analyzeData` -/

lemma analyzeData_eq_ok {labels : List Int} {issues : List Entry} {gs : List Group}
    (h : analyzeData labels issues = .ok gs) :
    issues.isEmpty = false ∧
    ∃ v, findLabel (-1) (sortGroups (buildAnalysis [] (labels.zip issues))) = some v ∧
      gs = removeLabel (-1) (sortGroups (buildAnalysis [] (labels.zip issues))) ++ [(-1, v)] := by
  unfold analyzeData at h
  by_cases he : issues.isEmpty
  · rw [if_pos he] at h
    cases h
  · rw [if_neg he] at h
    unfold rankAssemble moveNoiseLast at h
    refine ⟨Bool.eq_false_iff.mpr he, ?_⟩
    cases hf : findLabel (-1) (sortGroups (buildAnalysis [] (labels.zip issues))) with
    | none => rw [hf] at h; cases h
    | some v => rw [hf] at h; exact ⟨v, rfl, (Except.ok.inj h).symm⟩

lemma analyzeData_eq_ok_of {labels : List Int} {issues : List Entry} {v : List Entry}
    (hne : issues.isEmpty = false)
    (hf : findLabel (-1) (sortGroups (buildAnalysis [] (labels.zip issues))) = some v) :
    analyzeData labels issues =
      .ok (removeLabel (-1) (sortGroups (buildAnalysis [] (labels.zip issues))) ++ [(-1, v)]) := by
  unfold analyzeData
  rw [if_neg (by rw [hne]; exact Bool.false_ne_true)]
  unfold rankAssemble moveNoiseLast
  rw [hf]

/-! ### Lemmas about the Manhattan distance matrix -/

lemma manhattanDist_self (v : List ℚ) : manhattanDist v v = 0 := by
  induction v with
  | nil => rfl
  | cons a v ih =>
    rw [manhattanDist, List.zip_cons_cons, List.map_cons, List.sum_cons, sub_self, abs_zero,
      zero_add]
    exact ih

lemma manhattanDist_comm (v w : List ℚ) : manhattanDist v w = manhattanDist w v := by
  induction v generalizing w with
  | nil => cases w <;> rfl
  | cons a v ih =>
    cases w with
    | nil => rfl
    | cons b w =>
      rw [manhattanDist, List.zip_cons_cons, List.map_cons, List.sum_cons, abs_sub_comm]
      rw [manhattanDist, List.zip_cons_cons, List.map_cons, List.sum_cons]
      rw [← manhattanDist, ← manhattanDist, ih]

lemma manhattanDist_nonneg (v w : List ℚ) : 0 ≤ manhattanDist v w := by
  refine List.sum_nonneg ?_
  intro x hx
  obtain ⟨p, _, rfl⟩ := List.mem_map.1 hx
  exact abs_nonneg _

lemma matEntry_eq {vs : List (List ℚ)} {i j : Nat} (hi : i < vs.length)
    (hj : j < vs.length) :
    matEntry vs i j = manhattanDist (vs.get ⟨i, hi⟩) (vs.get ⟨j, hj⟩) := by
  have h1 : (List.map (fun v => List.map (fun w => manhattanDist v w) vs) vs).getD i []
      = List.map (fun w => manhattanDist (vs.get ⟨i, hi⟩) w) vs := by
    rw [List.getD_eq_getElem _ _ (by simpa using hi), List.getElem_map]
    simp [List.get_eq_getElem]
  unfold matEntry manhattan_distances
  rw [h1, List.getD_eq_getElem _ _ (by simpa using hj), List.getElem_map]
  simp [List.get_eq_getElem]

lemma filter_removeLabel_of_noise_excluded (p : Group → Bool)
    (hp : ∀ g : Group, g.1 = -1 → p g = false) (gs : List Group) :
    (removeLabel (-1) gs).filter p = gs.filter p := by
  induction gs with
  | nil => rfl
  | cons g gs ih =>
    by_cases h : g.1 = -1
    · rw [removeLabel, if_pos h, List.filter_cons, hp g h]
      simp
    · rw [removeLabel, if_neg h, List.filter_cons, List.filter_cons]
      cases hpg : p g
      · simp [ih]
      · simp [ih]

/-! ### Claim theorems -/

/-- C1: the spec expects that when the density clusterer assigns every item a non-noise
label (five near-identical titles, minimum cluster size 2), `analyze_data` completes
with exactly the non-noise groups — here one group of size 5 and no noise group.  The
code instead raises `KeyError` at `self.analysis[-1] = self.analysis.pop(-1)`, because
`dict.pop` without a default fails when no `-1` key exists.  This theorem evaluates the
embedded code at that failing input. -/
theorem analyzeData_all_nonnoise_keyerror :
    analyzeData [0, 0, 0, 0, 0]
      [("Crash on startup", "u1"), ("App crashes on startup", "u2"),
       ("Crash at startup", "u3"), ("Crash on start", "u4"), ("Crashes on startup", "u5")]
      = .error "KeyError: -1" := rfl

/-- C4: the spec guarantees that on failure no partial/inconsistent analysis state is
observable (the result is complete or empty/unchanged).  The code violates this: with
two items both labeled `0` (no noise label), `analyze_data` raises `KeyError` after
having already assigned the sorted groups to `self.analysis`, so a non-empty, changed
analysis state — missing the noise fix-up — remains observable on the object. -/
theorem analyzeDataRun_partial_state_on_keyerror :
    (analyzeDataRun [0, 0] ⟨[("a", "u1"), ("b", "u2")], []⟩).2 = some "KeyError: -1" ∧
    (analyzeDataRun [0, 0] ⟨[("a", "u1"), ("b", "u2")], []⟩).1.analysis
      = [(0, [("a", "u1"), ("b", "u2")])] ∧
    (analyzeDataRun [0, 0] ⟨[("a", "u1"), ("b", "u2")], []⟩).1.analysis ≠ [] :=
  ⟨rfl, rfl, fun h => List.noConfusion h⟩

/-- C6: on an empty issue mapping, `collect_data` raises `ValueError` ("Issues not
available"), `analyze_data` itself raises `ValueError` ("Open issues not found."), and
`DeepRepoBase.run` catches the collection error and returns without ever invoking the
clustering engine. -/
theorem empty_issues_value_error :
    collectData [] = .error "Issues not available" ∧
    (∀ labels : List Int, analyzeData labels [] = .error "Open issues not found.") ∧
    (∀ labels : List Int, runPipeline [] labels = none) :=
  ⟨rfl, fun _ => rfl, fun _ => rfl⟩

/-- C9: the ranking/assembly stage (grouping by label, stable descending-size sort,
noise-to-end fix-up) is a pure, deterministic function of its `(label, title, url)`
triples, so running it twice on the same triples yields the same ordered group
sequence both times. -/
theorem rankAssemble_deterministic (triples : List (Int × Entry)) :
    rankAssemble triples = rankAssemble triples := rfl

/-- C7: for any list of embedding vectors, the dissimilarity matrix is the square
matrix of pairwise Manhattan (L1) distances, with zero diagonal, symmetry, and
non-negative entries. -/
theorem manhattan_matrix_props (vs : List (List ℚ)) (i j : Nat)
    (hi : i < vs.length) (hj : j < vs.length) :
    matEntry vs i i = 0 ∧ matEntry vs i j = matEntry vs j i ∧ 0 ≤ matEntry vs i j := by
  refine ⟨?_, ?_, ?_⟩
  · rw [matEntry_eq hi hi]
    exact manhattanDist_self _
  · rw [matEntry_eq hi hj, matEntry_eq hj hi]
    exact manhattanDist_comm _ _
  · rw [matEntry_eq hi hj]
    exact manhattanDist_nonneg _ _

/-- Witness for C7 at the concrete matrix of the two vectors (1,2) and (3,5). -/
theorem manhattan_matrix_props_witness :
    (0 < ([[1, 2], [3, 5]] : List (List ℚ)).length ∧
      1 < ([[1, 2], [3, 5]] : List (List ℚ)).length) ∧
    (matEntry [[1, 2], [3, 5]] 0 0 = 0 ∧
      matEntry [[1, 2], [3, 5]] 0 1 = matEntry [[1, 2], [3, 5]] 1 0 ∧
      0 ≤ matEntry [[1, 2], [3, 5]] 0 1) :=
  ⟨⟨by decide, by decide⟩,
    manhattan_matrix_props [[1, 2], [3, 5]] 0 1 (by decide) (by decide)⟩

/-- C8: a single input title cannot meet minimum cluster size 2, so any valid labeling
marks it noise (`-1`); the pipeline then produces exactly one group of size 1 labeled
with the noise sentinel, and `generate_report` renders it with the fixed identity
"Other" instead of a numeric index. -/
theorem single_title_noise_other (t u : String) (labels : List Int)
    (hlen : labels.length = 1) (hval : ValidLabeling 2 labels) :
    analyzeData labels [(t, u)] = .ok [(-1, [(t, u)])] ∧
    reportIdents [(-1, [(t, u)])] = ["Other"] := by
  obtain ⟨l, rfl⟩ : ∃ l, labels = [l] := by
    cases labels with
    | nil => simp at hlen
    | cons a labels =>
      cases labels with
      | nil => exact ⟨a, rfl⟩
      | cons b labels => simp at hlen
  have hl : l = -1 := by
    by_contra hne
    have h2 := hval l (by simp) hne
    rw [show List.count l [l] = 1 by simp] at h2
    omega
  subst hl
  exact ⟨rfl, rfl⟩

/-- Witness for C8 at the concrete single title "a" with the valid labeling `[-1]`. -/
theorem single_title_noise_other_witness :
    ([(-1 : Int)].length = 1 ∧ ValidLabeling 2 [-1]) ∧
    (analyzeData [-1] [("a", "u")] = .ok [(-1, [("a", "u")])] ∧
      reportIdents [(-1, [("a", "u")])] = ["Other"]) :=
  ⟨⟨rfl, fun l hl hne => absurd (List.mem_singleton.1 hl) hne⟩,
    single_title_noise_other "a" "u" [-1] rfl
      (fun l hl hne => absurd (List.mem_singleton.1 hl) hne)⟩

/-- C2: partition property — for parallel labels, the multiset of `(title, url)`
entries across the output groups of `analyze_data` equals the input issue mapping
exactly: every input pair appears in exactly one group, no duplication, no omission. -/
theorem analyzeData_partition (labels : List Int) (issues : List Entry) (gs : List Group)
    (hlen : labels.length = issues.length)
    (hok : analyzeData labels issues = .ok gs) :
    allEntries gs ~ issues := by
  obtain ⟨-, v, hf, rfl⟩ := analyzeData_eq_ok hok
  have h1 : removeLabel (-1) (sortGroups (buildAnalysis [] (labels.zip issues))) ++ [(-1, v)]
      ~ sortGroups (buildAnalysis [] (labels.zip issues)) :=
    (List.perm_append_singleton _ _).trans (perm_cons_removeLabel hf).symm
  have h2 := allEntries_perm_of_perm h1
  have h3 : allEntries (sortGroups (buildAnalysis [] (labels.zip issues)))
      ~ allEntries (buildAnalysis [] (labels.zip issues)) :=
    allEntries_perm_of_perm (sortGroups_perm _)
  have h4 : allEntries (buildAnalysis [] (labels.zip issues)) ~ (labels.zip issues).map (·.2) := by
    simpa [allEntries] using allEntries_buildAnalysis (labels.zip issues) []
  have h5 : (labels.zip issues).map (·.2) = issues := by
    simpa using List.map_snd_zip labels issues hlen.ge
  rw [h5] at h4
  exact (h2.trans h3).trans h4

/-- Witness for C2 at one title labeled noise. -/
theorem analyzeData_partition_witness :
    ([(-1 : Int)].length = [(("a" : String), ("u" : String))].length ∧
      analyzeData [-1] [("a", "u")] = .ok [(-1, [("a", "u")])]) ∧
    allEntries [(-1, [("a", "u")])] ~ [("a", "u")] :=
  ⟨⟨rfl, rfl⟩, analyzeData_partition [-1] [("a", "u")] [(-1, [("a", "u")])] rfl rfl⟩

/-- C3: whenever at least one item carries the noise sentinel `-1`, `analyze_data`
succeeds and the noise group is the last element of the ordered group sequence,
regardless of its size; every earlier group is non-noise. -/
theorem analyzeData_noise_last (labels : List Int) (issues : List Entry)
    (hlen : labels.length = issues.length) (hmem : -1 ∈ labels) :
    ∃ gs v, analyzeData labels issues = .ok gs ∧
      gs.getLast? = some (-1, v) ∧ ∀ g ∈ gs.dropLast, g.1 ≠ -1 := by
  have hlne : labels ≠ [] := List.ne_nil_of_mem hmem
  have hne : issues.isEmpty = false := by
    cases issues with
    | nil =>
      rw [List.length_nil] at hlen
      exact absurd (List.length_eq_zero.1 hlen) hlne
    | cons a l => rfl
  have hkeys : -1 ∈ keys (sortGroups (buildAnalysis [] (labels.zip issues))) := by
    rw [mem_keys_sortGroups, mem_keys_buildAnalysis]
    right
    have hfst : (labels.zip issues).map (·.1) = labels := by
      simpa using List.map_fst_zip labels issues hlen.le
    rw [hfst]
    exact hmem
  obtain ⟨v, hv⟩ : ∃ v, findLabel (-1) (sortGroups (buildAnalysis [] (labels.zip issues)))
      = some v := by
    cases hfc : findLabel (-1) (sortGroups (buildAnalysis [] (labels.zip issues))) with
    | none => exact absurd hkeys ((findLabel_eq_none_iff _ _).1 hfc)
    | some v => exact ⟨v, rfl⟩
  refine ⟨removeLabel (-1) (sortGroups (buildAnalysis [] (labels.zip issues))) ++ [(-1, v)],
    v, analyzeData_eq_ok_of hne hv, ?_, ?_⟩
  · rw [List.getLast?_concat]
  · rw [List.dropLast_concat]
    intro g hg hc
    have hnd : (keys (sortGroups (buildAnalysis [] (labels.zip issues)))).Nodup :=
      keys_nodup_sortGroups (nodup_keys_buildAnalysis _ _ (by simp [keys]))
    have hmemk : g.1 ∈ keys (removeLabel (-1)
        (sortGroups (buildAnalysis [] (labels.zip issues)))) :=
      List.mem_map_of_mem (·.1) hg
    rw [hc] at hmemk
    exact not_mem_keys_removeLabel hnd hmemk

/-- Witness for C3 at two titles, the second labeled noise. -/
theorem analyzeData_noise_last_witness :
    ([(0 : Int), -1].length = [("a", "u1"), ("b", "u2")].length ∧
      (-1 : Int) ∈ [(0 : Int), -1]) ∧
    (∃ gs v, analyzeData [0, -1] [("a", "u1"), ("b", "u2")] = .ok gs ∧
      gs.getLast? = some (-1, v) ∧ ∀ g ∈ gs.dropLast, g.1 ≠ -1) :=
  ⟨⟨rfl, by decide⟩,
    analyzeData_noise_last [0, -1] [("a", "u1"), ("b", "u2")] rfl (by decide)⟩

/-- C10: within every output group, the member entries appear in the same relative
order as in the input issue sequence: each group's member list is a sublist of the
input (grouping appends in input order and never reorders members). -/
theorem group_members_input_order (labels : List Int) (issues : List Entry)
    (gs : List Group) (g : Group) (hlen : labels.length = issues.length)
    (hok : analyzeData labels issues = .ok gs) (hg : g ∈ gs) :
    g.2.Sublist issues := by
  obtain ⟨-, v, hf, rfl⟩ := analyzeData_eq_ok hok
  have hnd : (keys (buildAnalysis [] (labels.zip issues))).Nodup :=
    nodup_keys_buildAnalysis _ _ (by simp [keys])
  have hgB : g ∈ buildAnalysis [] (labels.zip issues) := by
    rcases List.mem_append.1 hg with h | h
    · exact (sortGroups_perm _).subset ((removeLabel_sublist _ _).subset h)
    · obtain rfl : g = (-1, v) := List.mem_singleton.1 h
      exact (sortGroups_perm _).subset (mem_of_findLabel_eq_some hf)
  have hval : g.2 = ((labels.zip issues).filter (fun p => p.1 = g.1)).map (·.2) := by
    have h1 : valueAt g.1 (buildAnalysis [] (labels.zip issues)) = g.2 := by
      rw [valueAt, findLabel_eq_some_of_mem hnd hgB]
      rfl
    have h2 := valueAt_buildAnalysis (labels.zip issues) [] g.1
    rw [h1] at h2
    rw [h2]
    simp [valueAt, findLabel]
  rw [hval]
  have hsub := (List.filter_sublist (l := labels.zip issues)
    (p := fun p => p.1 = g.1)).map (·.2)
  have hzip : (labels.zip issues).map (·.2) = issues := by
    simpa using List.map_snd_zip labels issues hlen.ge
  rw [hzip] at hsub
  exact hsub

/-- Witness for C10 at one title labeled noise, the group being the noise group. -/
theorem group_members_input_order_witness :
    ([(-1 : Int)].length = [(("a" : String), ("u" : String))].length ∧
      analyzeData [-1] [("a", "u")] = .ok [(-1, [("a", "u")])] ∧
      ((-1 : Int), [(("a" : String), ("u" : String))]) ∈ [((-1 : Int), [(("a" : String), ("u" : String))])]) ∧
    ((-1 : Int), [(("a" : String), ("u" : String))]).2.Sublist [("a", "u")] :=
  ⟨⟨rfl, rfl, List.mem_singleton_self _⟩,
    group_members_input_order [-1] [("a", "u")] [(-1, [("a", "u")])]
      (-1, [("a", "u")]) rfl rfl (List.mem_singleton_self _)⟩

/-- C5: in the output of `analyze_data`, the non-noise groups are ordered by
descending member count (any earlier non-noise group is at least as large as any later
one, in particular adjacent ones), and the sort is stable: for every size `k`, the
subsequence of non-noise groups of size `k` is exactly that of the grouping stage's
output, whose order is the first-encounter order of labels in the input sequence. -/
theorem analyzeData_sorted_desc_stable (labels : List Int) (issues : List Entry)
    (gs : List Group) (hok : analyzeData labels issues = .ok gs) :
    (∀ i j (hi : i < gs.length) (hj : j < gs.length), i < j →
        gs[i].1 ≠ -1 → gs[j].1 ≠ -1 → gs[j].2.length ≤ gs[i].2.length) ∧
    (∀ k : Nat, gs.filter (fun g => decide (g.1 ≠ -1) && (g.2.length == k))
        = (buildAnalysis [] (labels.zip issues)).filter
            (fun g => decide (g.1 ≠ -1) && (g.2.length == k))) := by
  obtain ⟨-, v, hf, rfl⟩ := analyzeData_eq_ok hok
  constructor
  · intro i j hi hj hij hni hnj
    have hpw : (removeLabel (-1)
        (sortGroups (buildAnalysis [] (labels.zip issues)))).Pairwise groupGE :=
      (sortGroups_sorted _).sublist (removeLabel_sublist _ _)
    have hjlen : j < (removeLabel (-1)
        (sortGroups (buildAnalysis [] (labels.zip issues)))).length + 1 := by
      simpa using hj
    have hjR : j < (removeLabel (-1)
        (sortGroups (buildAnalysis [] (labels.zip issues)))).length := by
      by_contra hcon
      have hj' : j = (removeLabel (-1)
          (sortGroups (buildAnalysis [] (labels.zip issues)))).length := by omega
      apply hnj
      subst hj'
      rw [List.getElem_append_right (le_refl _)]
      simp
    have hiR : i < (removeLabel (-1)
        (sortGroups (buildAnalysis [] (labels.zip issues)))).length := hij.trans hjR
    rw [List.getElem_append_left hiR, List.getElem_append_left hjR]
    exact List.pairwise_iff_getElem.1 hpw i j hiR hjR hij
  · intro k
    rw [List.filter_append]
    have hT : ([((-1 : Int), v)].filter
        (fun g => decide (g.1 ≠ -1) && (g.2.length == k))) = [] := by simp
    rw [hT, List.append_nil]
    have hp : ∀ g : Group, g.1 = -1 →
        (decide (g.1 ≠ -1) && (g.2.length == k)) = false := by
      intro g hg
      simp [hg]
    rw [filter_removeLabel_of_noise_excluded _ hp]
    rw [← List.filter_filter, ← List.filter_filter, filter_length_sortGroups]

/-- Witness for C5: four clusters of sizes 3, 2, 2, and a noise singleton; the concrete
output keeps the two size-2 clusters in first-encountered order and the noise last. -/
theorem analyzeData_sorted_desc_stable_witness :
    analyzeData [0, 0, 1, 1, 2, 2, 2, -1]
      [("a", "1"), ("b", "2"), ("c", "3"), ("d", "4"), ("e", "5"), ("f", "6"),
       ("g", "7"), ("h", "8")]
      = .ok [(2, [("e", "5"), ("f", "6"), ("g", "7")]), (0, [("a", "1"), ("b", "2")]),
             (1, [("c", "3"), ("d", "4")]), (-1, [("h", "8")])] ∧
    ((∀ i j (hi : i < ([(2, [("e", "5"), ("f", "6"), ("g", "7")]),
          (0, [("a", "1"), ("b", "2")]), (1, [("c", "3"), ("d", "4")]),
          (-1, [("h", "8")])] : List Group).length)
        (hj : j < ([(2, [("e", "5"), ("f", "6"), ("g", "7")]),
          (0, [("a", "1"), ("b", "2")]), (1, [("c", "3"), ("d", "4")]),
          (-1, [("h", "8")])] : List Group).length), i < j →
        ([(2, [("e", "5"), ("f", "6"), ("g", "7")]), (0, [("a", "1"), ("b", "2")]),
          (1, [("c", "3"), ("d", "4")]), (-1, [("h", "8")])] : List Group)[i].1 ≠ -1 →
        ([(2, [("e", "5"), ("f", "6"), ("g", "7")]), (0, [("a", "1"), ("b", "2")]),
          (1, [("c", "3"), ("d", "4")]), (-1, [("h", "8")])] : List Group)[j].1 ≠ -1 →
        ([(2, [("e", "5"), ("f", "6"), ("g", "7")]), (0, [("a", "1"), ("b", "2")]),
          (1, [("c", "3"), ("d", "4")]), (-1, [("h", "8")])] : List Group)[j].2.length ≤
        ([(2, [("e", "5"), ("f", "6"), ("g", "7")]), (0, [("a", "1"), ("b", "2")]),
          (1, [("c", "3"), ("d", "4")]), (-1, [("h", "8")])] : List Group)[i].2.length) ∧
      (∀ k : Nat, ([(2, [("e", "5"), ("f", "6"), ("g", "7")]),
          (0, [("a", "1"), ("b", "2")]), (1, [("c", "3"), ("d", "4")]),
          (-1, [("h", "8")])] : List Group).filter
            (fun g => decide (g.1 ≠ -1) && (g.2.length == k))
        = (buildAnalysis [] (([0, 0, 1, 1, 2, 2, 2, -1] : List Int).zip
            [("a", "1"), ("b", "2"), ("c", "3"), ("d", "4"), ("e", "5"), ("f", "6"),
             ("g", "7"), ("h", "8")])).filter
            (fun g => decide (g.1 ≠ -1) && (g.2.length == k)))) :=
  ⟨rfl, analyzeData_sorted_desc_stable [0, 0, 1, 1, 2, 2, 2, -1]
    [("a", "1"), ("b", "2"), ("c", "3"), ("d", "4"), ("e", "5"), ("f", "6"),
     ("g", "7"), ("h", "8")]
    [(2, [("e", "5"), ("f", "6"), ("g", "7")]), (0, [("a", "1"), ("b", "2")]),
     (1, [("c", "3"), ("d", "4")]), (-1, [("h", "8")])] rfl⟩

end DeepRepo
